import Mathlib

/-!
Job record model of `prow/kube/prowjob.go`

A shallow embedding of the vendored file
`perfdash/Godeps/_workspace/src/k8s.io/test-infra/prow/kube/prowjob.go`:
the enumerated string constants, the record types `ProwJob`, `ProwJobSpec`,
`ProwJobStatus`, `Refs`, `Pull`, and the two methods `ProwJob.Complete` and
`Refs.String`.

Conventions of the embedding:

* a Go `string` is a Lean `String`, a Go `int` is an `Int`, a Go slice is a
  `List` (a nil slice and a slice of length 0 are both `[]`);
* `ObjectMeta` and `PodSpec` are declared in other files of package `kube`;
  the record types take them as the type parameters `Meta` and `Pod`;
* `time.Time`, `fmt.Sprintf` and `strings.Join` belong to the Go standard
  library; the parts of them the two methods use are written out below.
-/

namespace Kube

/-! ## Enumerated string types and their constants (lines 25-68) -/

abbrev ProwJobType := String
abbrev ProwJobState := String
abbrev ProwJobAgent := String

def PresubmitJob : ProwJobType := "presubmit"
def PostsubmitJob : String := "postsubmit"
def PeriodicJob : String := "periodic"
def BatchJob : String := "batch"

def TriggeredState : ProwJobState := "triggered"
def PendingState : String := "pending"
def SuccessState : String := "success"
def FailureState : String := "failure"
def AbortedState : String := "aborted"
def ErrorState : String := "error"

def KubernetesAgent : ProwJobAgent := "kubernetes"
def JenkinsAgent : String := "jenkins"

def CreatedByProw : String := "created-by-prow"
def ProwJobTypeLabel : String := "prow.k8s.io/type"
def ProwJobAnnotation : String := "prow.k8s.io/job"

/-! ## `time.Time` and `IsZero` (Go standard library, `time/time.go`) -/

/-- The three words of a Go `time.Time`: `wall` is a `uint64`, `ext` an
`int64`, `loc` the location pointer (`none` is the nil pointer, read as UTC). -/
structure Time where
  wall : Nat := 0
  ext : Int := 0
  loc : Option String := none
deriving DecidableEq, Repr, Inhabited

def hasMonotonic : Nat := 2 ^ 63
def nsecMask : Nat := 2 ^ 30 - 1
def nsecShift : Nat := 30

/-- Seconds from January 1 of year 1 to January 1 of year 1885. -/
def wallToInternal : Int := (1884 * 365 + 1884 / 4 - 1884 / 100 + 1884 / 400) * 86400

/-- The method `nsec`: `int32(t.wall & nsecMask)`. -/
def Time.nsec (t : Time) : Int := ((t.wall &&& nsecMask : Nat) : Int)

/-- The method `sec`: seconds since January 1 of year 1. With the monotonic
flag set they are the 33 bits of `wall` above the nanoseconds
(`t.wall<<1>>(nsecShift+1)` on 64 bits) counted from 1885, else they are `ext`. -/
def Time.sec (t : Time) : Int :=
  if t.wall &&& hasMonotonic != 0 then
    wallToInternal + (((t.wall * 2) % 2 ^ 64 / 2 ^ (nsecShift + 1) : Nat) : Int)
  else t.ext

/-- The method `IsZero`: `t.sec() == 0 && t.nsec() == 0`. -/
def Time.IsZero (t : Time) : Bool := t.sec == 0 && t.nsec == 0

/-- The zero time of Go's documentation: the instant January 1, year 1,
00:00:00.000000000 UTC, that is 0 seconds and 0 nanoseconds after it. -/
def Time.isZeroTime (t : Time) : Prop := t.sec = 0 ∧ t.nsec = 0

instance (t : Time) : Decidable t.isZeroTime := by
  unfold Time.isZeroTime
  infer_instance

/-! ## Record types (lines 70-122) -/

structure Pull where
  Number : Int := 0
  Author : String := ""
  SHA : String := ""
deriving DecidableEq, Repr, Inhabited

structure Refs where
  Org : String := ""
  Repo : String := ""
  BaseRef : String := ""
  BaseSHA : String := ""
  Pulls : List Pull := []
deriving DecidableEq, Repr, Inhabited

/-- The record `ProwJobSpec`; the field `Type` is written `Type_`. It holds a
slice of its own type, `RunAfterSuccess`, so a value is a finite tree of specs. -/
structure ProwJobSpec (Pod : Type) where
  Type_ : ProwJobType := ""
  Agent : ProwJobAgent := ""
  Job : String := ""
  Refs : Refs := {}
  Report : Bool := false
  Context : String := ""
  RerunCommand : String := ""
  MaxConcurrency : Int := 0
  PodSpec : Pod
  RunAfterSuccess : List (ProwJobSpec Pod)

structure ProwJobStatus where
  StartTime : Time := {}
  CompletionTime : Time := {}
  State : ProwJobState := ""
  Description : String := ""
  URL : String := ""
  PodName : String := ""
  BuildID : String := ""
deriving DecidableEq, Repr, Inhabited

structure ProwJob (Meta Pod : Type) where
  APIVersion : String := ""
  Kind : String := ""
  Metadata : Meta
  Spec : ProwJobSpec Pod
  Status : ProwJobStatus

/-- The method `Complete` (lines 104-106), on the job its receiver points to:
`!j.Status.CompletionTime.IsZero()`. -/
def ProwJob.Complete {Meta Pod : Type} (j : ProwJob Meta Pod) : Bool :=
  !j.Status.CompletionTime.IsZero

/-! ## `Refs.String` (lines 124-130) and the library calls it makes -/

/-- The verb `%d` of `fmt.Sprintf` on an `int`: the base-10 digits without
padding, after a `-` when the number is negative. -/
def decimal (n : Int) : String := toString n

/-- The call `fmt.Sprintf("%s:%s", a, b)`. -/
def Sprintf_s_s (a b : String) : String := a ++ ":" ++ b

/-- The call `fmt.Sprintf("%d:%s", n, b)`. -/
def Sprintf_d_s (n : Int) (b : String) : String := decimal n ++ ":" ++ b

/-- The function `strings.Join(elems, sep)`: the empty string for no
element, else the first element followed by `sep` and the next element for
each further one. -/
def Join : List String → String → String
  | [], _ => ""
  | a :: rest, sep => rest.foldl (fun b s => b ++ sep ++ s) a

/-- The method `Refs.String`: `rs` starts as the one-element slice holding
`BaseRef:BaseSHA`, the loop appends `Number:SHA` for each pull in slice
order, and the result joins `rs` with commas. -/
def Refs.String (r : Refs) : String :=
  let rs := [Sprintf_s_s r.BaseRef r.BaseSHA]
  let rs := r.Pulls.foldl (fun rs pull => rs ++ [Sprintf_d_s pull.Number pull.SHA]) rs
  Join rs ","

/-! ## Reference renderings the statements compare with -/

/-- The text a list of pulls adds to a rendering: for each pull in list
order a comma, the number in base 10, a colon and the SHA. -/
def pullsSuffix : List Pull → String
  | [] => ""
  | p :: ps => "," ++ decimal p.Number ++ ":" ++ p.SHA ++ pullsSuffix ps

/-- The segment of one pull: the number in base 10, a colon and the SHA. -/
def pullSegment (p : Pull) : String := decimal p.Number ++ ":" ++ p.SHA

/-- The function `strings.Split(s, ",")` for a one-character separator:
the pieces of `s` between the occurrences of the separator. -/
def Split (s : String) (sep : Char) : List String := s.split (fun c => c == sep)

/-- The job `j` with `Status.State` replaced by `s`. -/
def ProwJob.withState {Meta Pod : Type} (j : ProwJob Meta Pod) (s : ProwJobState) :
    ProwJob Meta Pod :=
  { j with Status := { j.Status with State := s } }

/-- The value `r` with its `Pulls` replaced by `ps`. -/
def Refs.withPulls (r : Refs) (ps : List Pull) : Refs := { r with Pulls := ps }

/-- The two fields of a pull that `Refs.String` reads. -/
def Pull.rendered (p : Pull) : Int × String := (p.Number, p.SHA)

/-- The characters `0` to `9`. -/
def isDecDigit (c : Char) : Prop := 48 ≤ c.toNat ∧ c.toNat < 58

instance (c : Char) : Decidable (isDecDigit c) := by
  unfold isDecDigit
  infer_instance

/-- The number a digit character stands for. -/
def digitValue (c : Char) : Nat := c.toNat - 48

/-- The number a list of digit characters stands for, read from the left. -/
def natValue (l : List Char) : Nat := l.foldl (fun a c => 10 * a + digitValue c) 0

/-- The integer a rendering stands for: a leading `-` negates the rest. -/
def intValue : List Char → Int
  | '-' :: t => -((natValue t : Nat) : Int)
  | l => ((natValue l : Nat) : Int)

/-! ## The wire format (spec §6)

The source declares the external keys in its struct tags; the encoder and
the decoder themselves (Go's `encoding/json`) and the types `ObjectMeta` and
`PodSpec` are not part of it. The definitions of this section follow §6 of
the specification. -/

/-- Modelled from the spec: the serialized representation of §6, "a
structured record with fields exactly as named in §3, using the field names
as external keys". The encoder, the decoder and the textual form of
timestamps, of `metadata` and of `pod_spec` are missing from the source, so a
wire value is a string, an integer, a boolean, a timestamp, a metadata or pod
descriptor carried whole, a sequence of wire values, or a record of keyed
wire values. -/
inductive Wire (Meta Pod : Type) where
  | str (s : String)
  | num (n : Int)
  | bool (b : Bool)
  | time (t : Time)
  | metadata (m : Meta)
  | pod (p : Pod)
  | seq (items : List (Wire Meta Pod))
  | record (fields : List (String × Wire Meta Pod))

section WireFormat

variable {Meta Pod : Type}

/-- Modelled from the spec: a string field of a record, absent from the wire
when it is the empty string (the tag option `omitempty`; "absence implies the
language's zero value"). The encoder is missing from the source. -/
def strField (key : String) (s : String) : List (String × Wire Meta Pod) :=
  if s = "" then [] else [(key, Wire.str s)]

/-- Modelled from the spec: an integer field of a record, absent from the
wire when it is zero. The encoder is missing from the source. -/
def numField (key : String) (n : Int) : List (String × Wire Meta Pod) :=
  if n = 0 then [] else [(key, Wire.num n)]

/-- Modelled from the spec: a boolean field of a record, absent from the
wire when it is false. The encoder is missing from the source. -/
def boolField (key : String) (b : Bool) : List (String × Wire Meta Pod) :=
  if b = false then [] else [(key, Wire.bool b)]

/-- Modelled from the spec: a sequence field of a record, absent from the
wire when the sequence is empty. The encoder is missing from the source. -/
def seqField (key : String) : List (Wire Meta Pod) → List (String × Wire Meta Pod)
  | [] => []
  | w :: ws => [(key, Wire.seq (w :: ws))]

/-- Modelled from the spec: the record of a `Pull`, keys `number`, `author`,
`sha` (§6). The encoder is missing from the source. -/
def encodePull (p : Pull) : Wire Meta Pod :=
  Wire.record (numField "number" p.Number ++ strField "author" p.Author ++ strField "sha" p.SHA)

/-- Modelled from the spec: the record of a `Refs`, keys `org`, `repo`,
`base_ref`, `base_sha`, `pulls` (§6), the pulls in stored order. The encoder
is missing from the source. -/
def encodeRefs (r : Refs) : Wire Meta Pod :=
  Wire.record (strField "org" r.Org ++ strField "repo" r.Repo ++ strField "base_ref" r.BaseRef
    ++ strField "base_sha" r.BaseSHA ++ seqField "pulls" (r.Pulls.map encodePull))

mutual
/-- Modelled from the spec: the record of a `ProwJobSpec`, keys `type`,
`agent`, `job`, `refs`, `report`, `context`, `rerun_command`,
`max_concurrency`, `pod_spec`, `run_after_success` (§6); the nested records
`refs` and `pod_spec` are always written. The encoder is missing from the
source. -/
def encodeSpec : ProwJobSpec Pod → Wire Meta Pod
  | ⟨ty, agent, job, refs, report, context, rerun, maxc, pod, after⟩ =>
    Wire.record (strField "type" ty ++ strField "agent" agent ++ strField "job" job
      ++ [("refs", encodeRefs refs)] ++ boolField "report" report
      ++ strField "context" context ++ strField "rerun_command" rerun
      ++ numField "max_concurrency" maxc ++ [("pod_spec", Wire.pod pod)]
      ++ seqField "run_after_success" (encodeSpecs after))
/-- Modelled from the spec: the records of a sequence of specs, in stored
order. The encoder is missing from the source. -/
def encodeSpecs : List (ProwJobSpec Pod) → List (Wire Meta Pod)
  | [] => []
  | s :: rest => encodeSpec s :: encodeSpecs rest
end

/-- Modelled from the spec: the record of a `ProwJobStatus`, keys
`startTime`, `completionTime`, `state`, `description`, `url`, `pod_name`,
`build_id` (§6); the two timestamps are always written. The encoder is
missing from the source. -/
def encodeStatus (st : ProwJobStatus) : Wire Meta Pod :=
  Wire.record ([("startTime", Wire.time st.StartTime),
      ("completionTime", Wire.time st.CompletionTime)]
    ++ strField "state" st.State ++ strField "description" st.Description
    ++ strField "url" st.URL ++ strField "pod_name" st.PodName
    ++ strField "build_id" st.BuildID)

/-- Modelled from the spec: the record of a `ProwJob`, keys `apiVersion`,
`kind`, `metadata`, `spec`, `status` (§6). The encoder is missing from the
source. -/
def encodeJob (j : ProwJob Meta Pod) : Wire Meta Pod :=
  Wire.record (strField "apiVersion" j.APIVersion ++ strField "kind" j.Kind
    ++ [("metadata", Wire.metadata j.Metadata), ("spec", encodeSpec j.Spec),
      ("status", encodeStatus j.Status)])

/-- Modelled from the spec: reading a record key by key into a value that
starts as the zero value, so that an absent key leaves the zero value ("all
fields are optional on the wire"); `step` reads one key. The decoder is
missing from the source. -/
def readFields {α : Type} (step : String → Wire Meta Pod → α → Option α) :
    List (String × Wire Meta Pod) → α → Option α
  | [], acc => some acc
  | (k, v) :: rest, acc => (step k v acc).bind (readFields step rest)

/-- Modelled from the spec: one key of a `Pull` record; a key the record
does not have is skipped, a value of the wrong shape is a decode error. The
decoder is missing from the source. -/
def pullStep (k : String) (v : Wire Meta Pod) (p : Pull) : Option Pull :=
  if k = "number" then
    match v with
    | Wire.num n => some { p with Number := n }
    | _ => none
  else if k = "author" then
    match v with
    | Wire.str s => some { p with Author := s }
    | _ => none
  else if k = "sha" then
    match v with
    | Wire.str s => some { p with SHA := s }
    | _ => none
  else some p

/-- Modelled from the spec: decoding a `Pull` record. The decoder is missing
from the source. -/
def decodePull : Wire Meta Pod → Option Pull
  | Wire.record fields => readFields pullStep fields {}
  | _ => none

/-- Modelled from the spec: decoding a sequence of `Pull` records, in order.
The decoder is missing from the source. -/
def decodePulls : List (Wire Meta Pod) → Option (List Pull)
  | [] => some []
  | w :: ws => (decodePull w).bind fun p => (decodePulls ws).bind fun ps => some (p :: ps)

/-- Modelled from the spec: one key of a `Refs` record. The decoder is
missing from the source. -/
def refsStep (k : String) (v : Wire Meta Pod) (r : Refs) : Option Refs :=
  if k = "org" then
    match v with
    | Wire.str s => some { r with Org := s }
    | _ => none
  else if k = "repo" then
    match v with
    | Wire.str s => some { r with Repo := s }
    | _ => none
  else if k = "base_ref" then
    match v with
    | Wire.str s => some { r with BaseRef := s }
    | _ => none
  else if k = "base_sha" then
    match v with
    | Wire.str s => some { r with BaseSHA := s }
    | _ => none
  else if k = "pulls" then
    match v with
    | Wire.seq items => (decodePulls items).bind fun ps => some { r with Pulls := ps }
    | _ => none
  else some r

/-- Modelled from the spec: decoding a `Refs` record. The decoder is missing
from the source. -/
def decodeRefs : Wire Meta Pod → Option Refs
  | Wire.record fields => readFields refsStep fields {}
  | _ => none

/-- The zero value of `ProwJobSpec`, given the zero value of `PodSpec`. -/
def zeroSpec [Inhabited Pod] : ProwJobSpec Pod := { PodSpec := default, RunAfterSuccess := [] }

/-- The zero value of `ProwJob`, given those of `ObjectMeta` and `PodSpec`. -/
def zeroJob [Inhabited Meta] [Inhabited Pod] : ProwJob Meta Pod :=
  { Metadata := default, Spec := zeroSpec, Status := {} }

/-- Modelled from the spec: one key of a `ProwJobSpec` record other than
`run_after_success`; a key the record does not have is skipped, a value of
the wrong shape is a decode error. The decoder is missing from the source. -/
def specStep (k : String) (v : Wire Meta Pod) (acc : ProwJobSpec Pod) :
    Option (ProwJobSpec Pod) :=
  if k = "type" then
    match v with
    | Wire.str s => some { acc with Type_ := s }
    | _ => none
  else if k = "agent" then
    match v with
    | Wire.str s => some { acc with Agent := s }
    | _ => none
  else if k = "job" then
    match v with
    | Wire.str s => some { acc with Job := s }
    | _ => none
  else if k = "refs" then
    (decodeRefs v).bind fun r => some { acc with Refs := r }
  else if k = "report" then
    match v with
    | Wire.bool b => some { acc with Report := b }
    | _ => none
  else if k = "context" then
    match v with
    | Wire.str s => some { acc with Context := s }
    | _ => none
  else if k = "rerun_command" then
    match v with
    | Wire.str s => some { acc with RerunCommand := s }
    | _ => none
  else if k = "max_concurrency" then
    match v with
    | Wire.num n => some { acc with MaxConcurrency := n }
    | _ => none
  else if k = "pod_spec" then
    match v with
    | Wire.pod p => some { acc with PodSpec := p }
    | _ => none
  else some acc

mutual
/-- Modelled from the spec: decoding a `ProwJobSpec` record, starting from
the zero value. The decoder is missing from the source. -/
def decodeSpec [Inhabited Pod] : Wire Meta Pod → Option (ProwJobSpec Pod)
  | Wire.record fields => decodeSpecFields fields zeroSpec
  | _ => none
/-- Modelled from the spec: reading the keys of a `ProwJobSpec` record one
by one; `run_after_success` holds a sequence of records of the same shape,
the other keys are read by `specStep`. The decoder is missing from the
source. -/
def decodeSpecFields [Inhabited Pod] :
    List (String × Wire Meta Pod) → ProwJobSpec Pod → Option (ProwJobSpec Pod)
  | [], acc => some acc
  | (k, Wire.seq items) :: rest, acc =>
    (if k = "run_after_success" then
      (decodeSpecs items).bind fun l => some { acc with RunAfterSuccess := l }
    else specStep k (Wire.seq items) acc).bind (decodeSpecFields rest)
  | (k, v) :: rest, acc =>
    (if k = "run_after_success" then none else specStep k v acc).bind (decodeSpecFields rest)
/-- Modelled from the spec: decoding a sequence of `ProwJobSpec` records, in
order. The decoder is missing from the source. -/
def decodeSpecs [Inhabited Pod] : List (Wire Meta Pod) → Option (List (ProwJobSpec Pod))
  | [] => some []
  | w :: ws => (decodeSpec w).bind fun s => (decodeSpecs ws).bind fun l => some (s :: l)
end

/-- Modelled from the spec: one key of a `ProwJobStatus` record. The decoder
is missing from the source. -/
def statusStep (k : String) (v : Wire Meta Pod) (st : ProwJobStatus) : Option ProwJobStatus :=
  if k = "startTime" then
    match v with
    | Wire.time t => some { st with StartTime := t }
    | _ => none
  else if k = "completionTime" then
    match v with
    | Wire.time t => some { st with CompletionTime := t }
    | _ => none
  else if k = "state" then
    match v with
    | Wire.str s => some { st with State := s }
    | _ => none
  else if k = "description" then
    match v with
    | Wire.str s => some { st with Description := s }
    | _ => none
  else if k = "url" then
    match v with
    | Wire.str s => some { st with URL := s }
    | _ => none
  else if k = "pod_name" then
    match v with
    | Wire.str s => some { st with PodName := s }
    | _ => none
  else if k = "build_id" then
    match v with
    | Wire.str s => some { st with BuildID := s }
    | _ => none
  else some st

/-- Modelled from the spec: decoding a `ProwJobStatus` record. The decoder
is missing from the source. -/
def decodeStatus : Wire Meta Pod → Option ProwJobStatus
  | Wire.record fields => readFields statusStep fields {}
  | _ => none

/-- Modelled from the spec: one key of a `ProwJob` record. The decoder is
missing from the source. -/
def jobStep [Inhabited Pod] (k : String) (v : Wire Meta Pod) (j : ProwJob Meta Pod) :
    Option (ProwJob Meta Pod) :=
  if k = "apiVersion" then
    match v with
    | Wire.str s => some { j with APIVersion := s }
    | _ => none
  else if k = "kind" then
    match v with
    | Wire.str s => some { j with Kind := s }
    | _ => none
  else if k = "metadata" then
    match v with
    | Wire.metadata m => some { j with Metadata := m }
    | _ => none
  else if k = "spec" then
    (decodeSpec v).bind fun sp => some { j with Spec := sp }
  else if k = "status" then
    (decodeStatus v).bind fun st => some { j with Status := st }
  else some j

/-- Modelled from the spec: decoding a `ProwJob` record, starting from the
zero value. The decoder is missing from the source. -/
def decodeJob [Inhabited Meta] [Inhabited Pod] : Wire Meta Pod → Option (ProwJob Meta Pod)
  | Wire.record fields => readFields jobStep fields zeroJob
  | _ => none

mutual
/-- The nesting depth of a spec: 0 without children, else one more than the
deepest child. -/
def ProwJobSpec.depth : ProwJobSpec Pod → Nat
  | ⟨_, _, _, _, _, _, _, _, _, after⟩ => depthList after
/-- One more than the deepest spec of a list, 0 for the empty list. -/
def depthList : List (ProwJobSpec Pod) → Nat
  | [] => 0
  | s :: rest => max (s.depth + 1) (depthList rest)
end

/-- A chain of `n` nested specs under `s`: each level has one child. -/
def nestSpec (s : ProwJobSpec Pod) : Nat → ProwJobSpec Pod
  | 0 => s
  | n + 1 => { s with RunAfterSuccess := [nestSpec s n] }

end WireFormat

/-! ## Lemmas on the loop and the join -/

theorem foldl_append_singleton {α β : Type} (f : α → β) (l : List α) (init : List β) :
    l.foldl (fun rs x => rs ++ [f x]) init = init ++ l.map f := by
  induction l generalizing init with
  | nil => simp
  | cons x xs ih => simp [ih]

theorem foldl_sep_pulls (ps : List Pull) (a : String) :
    (ps.map (fun p => Sprintf_d_s p.Number p.SHA)).foldl (fun b s => b ++ "," ++ s) a
      = a ++ pullsSuffix ps := by
  induction ps generalizing a with
  | nil => simp [pullsSuffix]
  | cons p ps ih =>
    rw [List.map_cons, List.foldl_cons, ih]
    simp only [pullsSuffix, Sprintf_d_s, String.append_assoc]

/-- The rendering in closed form: the base segment followed by the pulls' text. -/
theorem Refs.String_eq (r : Refs) :
    r.String = r.BaseRef ++ ":" ++ r.BaseSHA ++ pullsSuffix r.Pulls := by
  simp only [Refs.String, foldl_append_singleton, List.singleton_append, Join, foldl_sep_pulls,
    Sprintf_s_s]

/-- The text of a concatenation of pull lists is the concatenation of their texts. -/
theorem pullsSuffix_append (ps qs : List Pull) :
    pullsSuffix (ps ++ qs) = pullsSuffix ps ++ pullsSuffix qs := by
  induction ps with
  | nil => simp [pullsSuffix]
  | cons p ps ih =>
    rw [List.cons_append, pullsSuffix, pullsSuffix, ih]
    simp only [String.append_assoc]

/-! ## Lemmas on the base-10 rendering -/

theorem digitChar_isDecDigit : ∀ k : Nat, k < 10 → isDecDigit (Nat.digitChar k) := by
  unfold isDecDigit; decide

theorem digitValue_digitChar : ∀ k : Nat, k < 10 → digitValue (Nat.digitChar k) = k := by
  unfold digitValue; decide

theorem toDigitsCore_isDecDigit (fuel : Nat) : ∀ (n : Nat) (ds : List Char),
    (∀ c ∈ ds, isDecDigit c) → ∀ c ∈ Nat.toDigitsCore 10 fuel n ds, isDecDigit c := by
  induction fuel with
  | zero => intro n ds h; simpa [Nat.toDigitsCore] using h
  | succ f ih =>
    intro n ds h
    have hd : isDecDigit (Nat.digitChar (n % 10)) :=
      digitChar_isDecDigit _ (Nat.mod_lt _ (by decide))
    have hds : ∀ c ∈ Nat.digitChar (n % 10) :: ds, isDecDigit c := by
      intro c hc
      rcases List.mem_cons.1 hc with rfl | hc
      · exact hd
      · exact h c hc
    simp only [Nat.toDigitsCore]
    split
    · exact hds
    · exact ih _ _ hds

theorem toDigitsCore_value (fuel : Nat) : ∀ (n : Nat) (ds : List Char), n < fuel →
    (Nat.toDigitsCore 10 fuel n ds).foldl (fun a c => 10 * a + digitValue c) 0
      = ds.foldl (fun a c => 10 * a + digitValue c) n := by
  induction fuel with
  | zero => intro n ds h; exact absurd h (Nat.not_lt_zero _)
  | succ f ih =>
    intro n ds h
    have hv : digitValue (Nat.digitChar (n % 10)) = n % 10 :=
      digitValue_digitChar _ (Nat.mod_lt _ (by decide))
    simp only [Nat.toDigitsCore]
    split
    · rename_i h0
      have hn : n % 10 = n := Nat.mod_eq_of_lt (by omega)
      rw [List.foldl_cons, hv, hn, Nat.mul_zero, Nat.zero_add]
    · rename_i h0
      rw [ih (n / 10) _ (by omega), List.foldl_cons, hv]
      congr 1
      omega

theorem repr_data (n : Nat) : (Nat.repr n).data = Nat.toDigits 10 n := rfl

theorem repr_isDecDigit (n : Nat) : ∀ c ∈ (Nat.repr n).data, isDecDigit c := by
  rw [repr_data]
  exact toDigitsCore_isDecDigit _ _ _ (by simp)

theorem natValue_repr (n : Nat) : natValue (Nat.repr n).data = n := by
  rw [repr_data, natValue, Nat.toDigits, toDigitsCore_value _ _ _ (Nat.lt_succ_self n)]
  rfl

theorem decimal_ofNat (m : Nat) : decimal (Int.ofNat m) = Nat.repr m := rfl

theorem decimal_negSucc (m : Nat) : decimal (Int.negSucc m) = "-" ++ Nat.repr (m + 1) := rfl

/-- Every character of a base-10 rendering is a digit or the sign. -/
theorem decimal_chars (n : Int) : ∀ c ∈ (decimal n).data, isDecDigit c ∨ c = '-' := by
  intro c hc
  cases n with
  | ofNat m =>
    rw [decimal_ofNat] at hc
    exact Or.inl (repr_isDecDigit m c hc)
  | negSucc m =>
    rw [decimal_negSucc, String.data_append] at hc
    rcases List.mem_append.1 hc with h | h
    · right
      simpa using h
    · exact Or.inl (repr_isDecDigit _ c h)

theorem comma_not_mem_decimal (n : Int) : ',' ∉ (decimal n).data := by
  intro h
  rcases decimal_chars n _ h with h | h
  · revert h; unfold isDecDigit; decide
  · revert h; decide

theorem colon_not_mem_decimal (n : Int) : ':' ∉ (decimal n).data := by
  intro h
  rcases decimal_chars n _ h with h | h
  · revert h; unfold isDecDigit; decide
  · revert h; decide

/-- Reading a base-10 rendering gives the integer back. -/
theorem intValue_decimal (n : Int) : intValue (decimal n).data = n := by
  cases n with
  | ofNat m =>
    rw [decimal_ofNat]
    have hv := natValue_repr m
    have hd := repr_isDecDigit m
    generalize (Nat.repr m).data = l at hv hd
    match l, hv, hd with
    | [], hv, _ => simp [intValue, hv]
    | c :: t, hv, hd =>
      have hc : c ≠ '-' := by
        intro hc
        have := hd c (List.mem_cons_self _ _)
        rw [hc] at this
        revert this; unfold isDecDigit; decide
      unfold intValue
      split
      · rename_i heq
        exact absurd (List.cons_eq_cons.1 heq).1 hc
      · rw [hv]; rfl
  | negSucc m =>
    rw [decimal_negSucc, String.data_append]
    show intValue ('-' :: (Nat.repr (m + 1)).data) = Int.negSucc m
    simp only [intValue, natValue_repr]
    rfl

theorem decimal_injective {m n : Int} (h : decimal m = decimal n) : m = n := by
  rw [← intValue_decimal m, ← intValue_decimal n, h]

theorem digitChar_ne_zero_char : ∀ k : Nat, k < 10 → 0 < k → Nat.digitChar k ≠ '0' := by
  decide

theorem toDigitsCore_head (fuel : Nat) : ∀ (n : Nat) (ds : List Char), n < fuel → 0 < n →
    ∃ k t, 0 < k ∧ k < 10 ∧ Nat.toDigitsCore 10 fuel n ds = Nat.digitChar k :: t := by
  induction fuel with
  | zero => intro n ds h; exact absurd h (Nat.not_lt_zero _)
  | succ f ih =>
    intro n ds h hpos
    simp only [Nat.toDigitsCore]
    split
    · rename_i h0
      have hn : n % 10 = n := Nat.mod_eq_of_lt (by omega)
      exact ⟨n, ds, hpos, by omega, by rw [hn]⟩
    · rename_i h0
      exact ih (n / 10) _ (by omega) (Nat.pos_of_ne_zero h0)

/-- The digits of a positive number do not start with `0`. -/
theorem repr_no_leading_zero (m : Nat) (hm : 0 < m) (t : List Char) :
    (Nat.repr m).data ≠ '0' :: t := by
  rw [repr_data, Nat.toDigits]
  obtain ⟨k, u, hk0, hk10, hk⟩ := toDigitsCore_head (m + 1) m [] (Nat.lt_succ_self m) hm
  rw [hk]
  intro h
  exact digitChar_ne_zero_char k hk10 hk0 (List.cons_eq_cons.1 h).1

/-- The rendering of a negative number is `-` followed by that of its absolute value. -/
theorem decimal_neg (n : Int) (h : n < 0) : decimal n = "-" ++ decimal (n.natAbs : Int) := by
  cases n with
  | ofNat m => exact absurd h (by simp)
  | negSucc m => rfl

/-! ## Lemmas on splitting a rendering at the commas -/

theorem pullsSuffix_cons_data (p : Pull) (ps : List Pull) :
    (pullsSuffix (p :: ps)).data = ',' :: ((pullSegment p).data ++ (pullsSuffix ps).data) := by
  simp [pullsSuffix, pullSegment, String.data_append]

theorem comma_not_mem_pullSegment (p : Pull) (h : ',' ∉ p.SHA.data) :
    ',' ∉ (pullSegment p).data := by
  have hd := comma_not_mem_decimal p.Number
  simp only [pullSegment, String.data_append, List.mem_append, not_or]
  refine ⟨⟨hd, by decide⟩, h⟩

theorem splitOnP_append_pullsSuffix (ps : List Pull) : ∀ (a : List Char), ',' ∉ a →
    (∀ p ∈ ps, ',' ∉ p.SHA.data) →
    (a ++ (pullsSuffix ps).data).splitOnP (fun c => c == ',')
      = a :: ps.map (fun p => (pullSegment p).data) := by
  induction ps with
  | nil =>
    intro a ha _
    simp only [pullsSuffix, List.append_nil, List.map_nil]
    apply List.splitOnP_eq_single
    intro x hx hp
    rw [eq_of_beq hp] at hx
    exact ha hx
  | cons p ps ih =>
    intro a ha hps
    rw [pullsSuffix_cons_data, List.splitOnP_first _ _ _ ',' (by decide)]
    · rw [ih _ (comma_not_mem_pullSegment p (hps p (List.mem_cons_self _ _)))
        (fun q hq => hps q (List.mem_cons_of_mem _ hq))]
      rfl
    · intro x hx hp
      rw [eq_of_beq hp] at hx
      exact ha hx

/-- Splitting a rendering at the commas gives the base segment and then the
segment of each pull, when no rendered field holds a comma. -/
theorem Split_String (r : Refs) (hRef : ',' ∉ r.BaseRef.data) (hSha : ',' ∉ r.BaseSHA.data)
    (hPulls : ∀ p ∈ r.Pulls, ',' ∉ p.SHA.data) :
    Split r.String ',' = (r.BaseRef ++ ":" ++ r.BaseSHA) :: r.Pulls.map pullSegment := by
  have ha : ',' ∉ (r.BaseRef ++ ":" ++ r.BaseSHA).data := by
    simp only [String.data_append, List.mem_append, not_or]
    exact ⟨⟨hRef, by decide⟩, hSha⟩
  rw [Split, String.split_of_valid, Refs.String_eq, String.data_append,
    splitOnP_append_pullsSuffix _ _ ha hPulls]
  simp only [List.map_cons, List.map_map, Function.comp_def]

/-! ## Lemmas on the fields a rendering shows -/

theorem pullsSuffix_congr : ∀ (ps qs : List Pull),
    ps.map Pull.rendered = qs.map Pull.rendered → pullsSuffix ps = pullsSuffix qs
  | [], [], _ => rfl
  | [], _ :: _, h => by simp at h
  | _ :: _, [], h => by simp at h
  | p :: ps, q :: qs, h => by
    simp only [List.map_cons, List.cons.injEq, Pull.rendered, Prod.mk.injEq] at h
    obtain ⟨⟨hn, hs⟩, ht⟩ := h
    simp only [pullsSuffix, hn, hs, pullsSuffix_congr ps qs ht]

/-- Pulls that agree position by position on number and SHA show the same fields. -/
theorem rendered_eq_of_pointwise (ps qs : List Pull) (hLen : ps.length = qs.length)
    (h : ∀ (i : Nat) (h1 : i < ps.length) (h2 : i < qs.length),
      (ps.get ⟨i, h1⟩).Number = (qs.get ⟨i, h2⟩).Number ∧
      (ps.get ⟨i, h1⟩).SHA = (qs.get ⟨i, h2⟩).SHA) :
    ps.map Pull.rendered = qs.map Pull.rendered := by
  apply List.ext_getElem
  · simp [hLen]
  · intro i h1 h2
    simp only [List.length_map] at h1 h2
    have := h i h1 h2
    simp only [List.get_eq_getElem] at this
    simp [Pull.rendered, this.1, this.2]

/-- Pulls that show the same fields agree position by position. -/
theorem pointwise_of_rendered_eq (ps qs : List Pull)
    (h : ps.map Pull.rendered = qs.map Pull.rendered) :
    ps.length = qs.length ∧
    ∀ (i : Nat) (h1 : i < ps.length) (h2 : i < qs.length),
      (ps.get ⟨i, h1⟩).Number = (qs.get ⟨i, h2⟩).Number ∧
      (ps.get ⟨i, h1⟩).SHA = (qs.get ⟨i, h2⟩).SHA := by
  have hl : ps.length = qs.length := by simpa using congrArg List.length h
  refine ⟨hl, ?_⟩
  intro i h1 h2
  have hi : (ps.map Pull.rendered)[i]? = (qs.map Pull.rendered)[i]? := by rw [h]
  simp only [List.getElem?_map, List.getElem?_eq_getElem h1, List.getElem?_eq_getElem h2,
    Option.map_some', Option.some.injEq, Pull.rendered, Prod.mk.injEq] at hi
  simpa using hi

/-- Two texts cut at a separator that neither left part holds have equal parts. -/
theorem append_sep_inj (c : Char) : ∀ (a b x y : List Char), c ∉ a → c ∉ b →
    a ++ c :: x = b ++ c :: y → a = b ∧ x = y
  | [], [], x, y, _, _, h => by simpa using h
  | [], d :: b, x, y, _, hb, h => by
    simp only [List.nil_append, List.cons_append, List.cons.injEq] at h
    exact absurd (h.1 ▸ List.mem_cons_self d b) hb
  | e :: a, [], x, y, ha, _, h => by
    simp only [List.nil_append, List.cons_append, List.cons.injEq] at h
    exact absurd (h.1 ▸ List.mem_cons_self e a) ha
  | e :: a, d :: b, x, y, ha, hb, h => by
    simp only [List.cons_append, List.cons.injEq] at h
    have ih := append_sep_inj c a b x y (fun m => ha (List.mem_cons_of_mem _ m))
      (fun m => hb (List.mem_cons_of_mem _ m)) h.2
    exact ⟨by rw [h.1, ih.1], ih.2⟩

theorem pullSegment_inj {p q : Pull} (h : pullSegment p = pullSegment q) :
    p.rendered = q.rendered := by
  have hd := congrArg String.data h
  simp only [pullSegment, String.data_append] at hd
  rw [List.append_assoc, List.append_assoc, List.singleton_append,
    List.singleton_append] at hd
  obtain ⟨h1, h2⟩ := append_sep_inj ':' _ _ _ _ (colon_not_mem_decimal _)
    (colon_not_mem_decimal _) hd
  have hn : p.Number = q.Number := decimal_injective (String.ext h1)
  have hs : p.SHA = q.SHA := String.ext h2
  simp [Pull.rendered, hn, hs]

theorem rendered_eq_of_segments : ∀ (ps qs : List Pull),
    ps.map pullSegment = qs.map pullSegment → ps.map Pull.rendered = qs.map Pull.rendered
  | [], [], _ => rfl
  | [], _ :: _, h => by simp at h
  | _ :: _, [], h => by simp at h
  | p :: ps, q :: qs, h => by
    simp only [List.map_cons, List.cons.injEq] at h
    simp only [List.map_cons, pullSegment_inj h.1, rendered_eq_of_segments ps qs h.2]

/-- Equal renderings come from equal rendered fields, when no base ref holds
a colon or a comma and no base SHA or pull SHA holds a comma. -/
theorem String_inj (r1 r2 : Refs)
    (c1 : ':' ∉ r1.BaseRef.data) (c2 : ':' ∉ r2.BaseRef.data)
    (k1 : ',' ∉ r1.BaseRef.data) (k2 : ',' ∉ r2.BaseRef.data)
    (s1 : ',' ∉ r1.BaseSHA.data) (s2 : ',' ∉ r2.BaseSHA.data)
    (p1 : ∀ p ∈ r1.Pulls, ',' ∉ p.SHA.data) (p2 : ∀ p ∈ r2.Pulls, ',' ∉ p.SHA.data)
    (h : r1.String = r2.String) :
    r1.BaseRef = r2.BaseRef ∧ r1.BaseSHA = r2.BaseSHA ∧
      r1.Pulls.map Pull.rendered = r2.Pulls.map Pull.rendered := by
  have hs : Split r1.String ',' = Split r2.String ',' := by rw [h]
  rw [Split_String r1 k1 s1 p1, Split_String r2 k2 s2 p2, List.cons.injEq] at hs
  obtain ⟨hh, ht⟩ := hs
  have hd := congrArg String.data hh
  simp only [String.data_append] at hd
  rw [List.append_assoc, List.append_assoc, List.singleton_append,
    List.singleton_append] at hd
  obtain ⟨h1, h2⟩ := append_sep_inj ':' _ _ _ _ c1 c2 hd
  exact ⟨String.ext h1, String.ext h2, rendered_eq_of_segments _ _ ht⟩

/-! ## Lemmas on the wire format -/

section WireLemmas
variable {Meta Pod : Type}

theorem readFields_append {α : Type} (step : String → Wire Meta Pod → α → Option α)
    (l1 l2 : List (String × Wire Meta Pod)) (a : α) :
    readFields step (l1 ++ l2) a = (readFields step l1 a).bind (readFields step l2) := by
  induction l1 generalizing a with
  | nil => rfl
  | cons kv rest ih =>
    obtain ⟨k, v⟩ := kv
    simp only [List.cons_append, readFields]
    cases step k v a with
    | none => rfl
    | some b => exact ih b

theorem decodePull_encodePull (p : Pull) :
    decodePull (encodePull p : Wire Meta Pod) = some p := by
  obtain ⟨n, a, sha⟩ := p
  have h1 : readFields pullStep (numField "number" n : List (String × Wire Meta Pod)) {}
      = some ⟨n, "", ""⟩ := by
    by_cases h : n = 0 <;> simp [numField, h, readFields, pullStep]
  have h2 : readFields pullStep (strField "author" a : List (String × Wire Meta Pod)) ⟨n, "", ""⟩
      = some ⟨n, a, ""⟩ := by
    by_cases h : a = "" <;> simp [strField, h, readFields, pullStep]
  have h3 : readFields pullStep (strField "sha" sha : List (String × Wire Meta Pod)) ⟨n, a, ""⟩
      = some ⟨n, a, sha⟩ := by
    by_cases h : sha = "" <;> simp [strField, h, readFields, pullStep]
  simp only [encodePull, decodePull, readFields_append, h1, h2, h3, Option.some_bind,
    Option.bind_some]

theorem decodePulls_map_encodePull (ps : List Pull) :
    decodePulls (ps.map encodePull : List (Wire Meta Pod)) = some ps := by
  induction ps with
  | nil => rfl
  | cons p ps ih =>
    simp only [List.map_cons, decodePulls, decodePull_encodePull, ih, Option.some_bind]

theorem readFields_seqField_pulls (ps : List Pull) (org repo ref sha : String) :
    readFields refsStep (seqField "pulls" (ps.map encodePull) : List (String × Wire Meta Pod))
      ⟨org, repo, ref, sha, []⟩ = some ⟨org, repo, ref, sha, ps⟩ := by
  cases ps with
  | nil => rfl
  | cons p ps =>
    have h := @decodePulls_map_encodePull Meta Pod (p :: ps)
    simp only [List.map_cons] at h
    simp [seqField, readFields, refsStep, h]

theorem decodeRefs_encodeRefs (r : Refs) :
    decodeRefs (encodeRefs r : Wire Meta Pod) = some r := by
  obtain ⟨org, repo, ref, sha, ps⟩ := r
  have h1 : readFields refsStep (strField "org" org : List (String × Wire Meta Pod)) {}
      = some ⟨org, "", "", "", []⟩ := by
    by_cases h : org = "" <;> simp [strField, h, readFields, refsStep]
  have h2 : readFields refsStep (strField "repo" repo : List (String × Wire Meta Pod))
      ⟨org, "", "", "", []⟩ = some ⟨org, repo, "", "", []⟩ := by
    by_cases h : repo = "" <;> simp [strField, h, readFields, refsStep]
  have h3 : readFields refsStep (strField "base_ref" ref : List (String × Wire Meta Pod))
      ⟨org, repo, "", "", []⟩ = some ⟨org, repo, ref, "", []⟩ := by
    by_cases h : ref = "" <;> simp [strField, h, readFields, refsStep]
  have h4 : readFields refsStep (strField "base_sha" sha : List (String × Wire Meta Pod))
      ⟨org, repo, ref, "", []⟩ = some ⟨org, repo, ref, sha, []⟩ := by
    by_cases h : sha = "" <;> simp [strField, h, readFields, refsStep]
  simp only [encodeRefs, decodeRefs, readFields_append, h1, h2, h3, h4,
    readFields_seqField_pulls, Option.some_bind, Option.bind_some]

theorem decodeStatus_encodeStatus (st : ProwJobStatus) :
    decodeStatus (encodeStatus st : Wire Meta Pod) = some st := by
  obtain ⟨t1, t2, state, desc, url, pod, build⟩ := st
  have h0 : readFields statusStep ([("startTime", Wire.time t1),
      ("completionTime", Wire.time t2)] : List (String × Wire Meta Pod)) {}
      = some ⟨t1, t2, "", "", "", "", ""⟩ := by
    simp [readFields, statusStep]
  have h1 : readFields statusStep (strField "state" state : List (String × Wire Meta Pod))
      ⟨t1, t2, "", "", "", "", ""⟩ = some ⟨t1, t2, state, "", "", "", ""⟩ := by
    by_cases h : state = "" <;> simp [strField, h, readFields, statusStep]
  have h2 : readFields statusStep (strField "description" desc : List (String × Wire Meta Pod))
      ⟨t1, t2, state, "", "", "", ""⟩ = some ⟨t1, t2, state, desc, "", "", ""⟩ := by
    by_cases h : desc = "" <;> simp [strField, h, readFields, statusStep]
  have h3 : readFields statusStep (strField "url" url : List (String × Wire Meta Pod))
      ⟨t1, t2, state, desc, "", "", ""⟩ = some ⟨t1, t2, state, desc, url, "", ""⟩ := by
    by_cases h : url = "" <;> simp [strField, h, readFields, statusStep]
  have h4 : readFields statusStep (strField "pod_name" pod : List (String × Wire Meta Pod))
      ⟨t1, t2, state, desc, url, "", ""⟩ = some ⟨t1, t2, state, desc, url, pod, ""⟩ := by
    by_cases h : pod = "" <;> simp [strField, h, readFields, statusStep]
  have h5 : readFields statusStep (strField "build_id" build : List (String × Wire Meta Pod))
      ⟨t1, t2, state, desc, url, pod, ""⟩ = some ⟨t1, t2, state, desc, url, pod, build⟩ := by
    by_cases h : build = "" <;> simp [strField, h, readFields, statusStep]
  simp only [encodeStatus, decodeStatus, readFields_append, h0, h1, h2, h3, h4, h5,
    Option.some_bind, Option.bind_some]

theorem decodeSpecFields_append [Inhabited Pod] (l1 l2 : List (String × Wire Meta Pod)) :
    ∀ a : ProwJobSpec Pod,
      decodeSpecFields (l1 ++ l2) a = (decodeSpecFields l1 a).bind (decodeSpecFields l2) := by
  induction l1 with
  | nil => intro a; simp [decodeSpecFields]
  | cons kv rest ih =>
    intro a
    obtain ⟨k, v⟩ := kv
    cases v <;> rw [List.cons_append, decodeSpecFields, decodeSpecFields, Option.bind_assoc]
    all_goals first
      | (intro _ h; cases h)
      | (congr 1; funext b; exact ih b)

theorem decodeSpecFields_leaf [Inhabited Pod] (k : String) (v : Wire Meta Pod)
    (a : ProwJobSpec Pod) (hk : k ≠ "run_after_success")
    (hv : ∀ items : List (Wire Meta Pod), v = Wire.seq items → False) :
    decodeSpecFields [(k, v)] a = specStep k v a := by
  rw [decodeSpecFields]
  · rw [if_neg hk]
    cases specStep k v a with
    | none => rfl
    | some b => simp [decodeSpecFields]
  · exact hv

theorem decodeSpecFields_strField [Inhabited Pod] (k s : String) (a b : ProwJobSpec Pod)
    (hk : k ≠ "run_after_success") (h1 : specStep k (Wire.str s : Wire Meta Pod) a = some b)
    (h0 : s = "" → b = a) :
    decodeSpecFields (strField k s : List (String × Wire Meta Pod)) a = some b := by
  by_cases h : s = ""
  · simp [strField, h, decodeSpecFields, h0 h]
  · simp only [strField, h, if_false]
    rw [decodeSpecFields_leaf k _ a hk (fun _ e => by cases e), h1]

theorem decodeSpecFields_numField [Inhabited Pod] (k : String) (n : Int) (a b : ProwJobSpec Pod)
    (hk : k ≠ "run_after_success") (h1 : specStep k (Wire.num n : Wire Meta Pod) a = some b)
    (h0 : n = 0 → b = a) :
    decodeSpecFields (numField k n : List (String × Wire Meta Pod)) a = some b := by
  by_cases h : n = 0
  · simp [numField, h, decodeSpecFields, h0 h]
  · simp only [numField, h, if_false]
    rw [decodeSpecFields_leaf k _ a hk (fun _ e => by cases e), h1]

theorem decodeSpecFields_boolField [Inhabited Pod] (k : String) (c : Bool)
    (a b : ProwJobSpec Pod) (hk : k ≠ "run_after_success")
    (h1 : specStep k (Wire.bool c : Wire Meta Pod) a = some b) (h0 : c = false → b = a) :
    decodeSpecFields (boolField k c : List (String × Wire Meta Pod)) a = some b := by
  cases c with
  | false => simp [boolField, decodeSpecFields, h0 rfl]
  | true =>
    simp only [boolField, if_false, Bool.true_eq_false]
    rw [decodeSpecFields_leaf k _ a hk (fun _ e => by cases e), h1]

theorem decodeSpecFields_children [Inhabited Pod] (after : List (ProwJobSpec Pod))
    (ih : decodeSpecs (encodeSpecs after : List (Wire Meta Pod)) = some after)
    (ty agent job : String) (refs : Refs) (report : Bool) (context rerun : String) (maxc : Int)
    (pod : Pod) :
    decodeSpecFields (seqField "run_after_success" (encodeSpecs after) :
        List (String × Wire Meta Pod))
      ⟨ty, agent, job, refs, report, context, rerun, maxc, pod, []⟩
      = some ⟨ty, agent, job, refs, report, context, rerun, maxc, pod, after⟩ := by
  cases after with
  | nil => simp [encodeSpecs, seqField, decodeSpecFields]
  | cons s rest =>
    rw [encodeSpecs] at ih ⊢
    rw [seqField, decodeSpecFields, if_pos rfl, ih]
    simp [decodeSpecFields]

/-- A spec record decodes to the spec it encodes, once its children do. -/
theorem decodeSpec_encodeSpec_of_children [Inhabited Pod] (s : ProwJobSpec Pod)
    (ih : decodeSpecs (encodeSpecs s.RunAfterSuccess : List (Wire Meta Pod))
      = some s.RunAfterSuccess) :
    decodeSpec (encodeSpec s : Wire Meta Pod) = some s := by
  obtain ⟨ty, agent, job, refs, report, context, rerun, maxc, pod, after⟩ := s
  have h1 := @decodeSpecFields_strField Meta Pod _ "type" ty zeroSpec
    ⟨ty, "", "", {}, false, "", "", 0, default, []⟩ (by decide) rfl
    (by rintro rfl; rfl)
  have h2 := @decodeSpecFields_strField Meta Pod _ "agent" agent
    ⟨ty, "", "", {}, false, "", "", 0, default, []⟩
    ⟨ty, agent, "", {}, false, "", "", 0, default, []⟩ (by decide) rfl
    (by rintro rfl; rfl)
  have h3 := @decodeSpecFields_strField Meta Pod _ "job" job
    ⟨ty, agent, "", {}, false, "", "", 0, default, []⟩
    ⟨ty, agent, job, {}, false, "", "", 0, default, []⟩ (by decide) rfl
    (by rintro rfl; rfl)
  have h4 : decodeSpecFields ([("refs", encodeRefs refs)] : List (String × Wire Meta Pod))
      ⟨ty, agent, job, {}, false, "", "", 0, default, []⟩
      = some ⟨ty, agent, job, refs, false, "", "", 0, default, []⟩ := by
    rw [decodeSpecFields_leaf _ _ _ (by decide) (fun _ e => by simp [encodeRefs] at e)]
    simp [specStep, decodeRefs_encodeRefs]
  have h5 := @decodeSpecFields_boolField Meta Pod _ "report" report
    ⟨ty, agent, job, refs, false, "", "", 0, default, []⟩
    ⟨ty, agent, job, refs, report, "", "", 0, default, []⟩ (by decide) rfl
    (by rintro rfl; rfl)
  have h6 := @decodeSpecFields_strField Meta Pod _ "context" context
    ⟨ty, agent, job, refs, report, "", "", 0, default, []⟩
    ⟨ty, agent, job, refs, report, context, "", 0, default, []⟩ (by decide)
    rfl (by rintro rfl; rfl)
  have h7 := @decodeSpecFields_strField Meta Pod _ "rerun_command" rerun
    ⟨ty, agent, job, refs, report, context, "", 0, default, []⟩
    ⟨ty, agent, job, refs, report, context, rerun, 0, default, []⟩ (by decide)
    rfl (by rintro rfl; rfl)
  have h8 := @decodeSpecFields_numField Meta Pod _ "max_concurrency" maxc
    ⟨ty, agent, job, refs, report, context, rerun, 0, default, []⟩
    ⟨ty, agent, job, refs, report, context, rerun, maxc, default, []⟩ (by decide)
    rfl (by rintro rfl; rfl)
  have h9 : decodeSpecFields ([("pod_spec", Wire.pod pod)] : List (String × Wire Meta Pod))
      ⟨ty, agent, job, refs, report, context, rerun, maxc, default, []⟩
      = some ⟨ty, agent, job, refs, report, context, rerun, maxc, pod, []⟩ := by
    rw [decodeSpecFields_leaf _ _ _ (by decide) (fun _ e => by cases e)]
    simp [specStep]
  have h10 := @decodeSpecFields_children Meta Pod _ after ih ty agent job refs report context
    rerun maxc pod
  rw [encodeSpec, decodeSpec]
  simp only [decodeSpecFields_append, h1, h2, h3, h4, h5, h6, h7, h8, h9, h10,
    Option.some_bind, Option.bind_some]

mutual
/-- A spec record decodes to the spec it encodes, children included. -/
theorem decodeSpec_encodeSpec [Inhabited Pod] :
    ∀ s : ProwJobSpec Pod, decodeSpec (encodeSpec s : Wire Meta Pod) = some s
  | ⟨_, _, _, _, _, _, _, _, _, after⟩ =>
    decodeSpec_encodeSpec_of_children _ (decodeSpecs_encodeSpecs after)
/-- A sequence of spec records decodes to the specs it encodes, in order. -/
theorem decodeSpecs_encodeSpecs [Inhabited Pod] :
    ∀ l : List (ProwJobSpec Pod), decodeSpecs (encodeSpecs l : List (Wire Meta Pod)) = some l
  | [] => by simp [encodeSpecs, decodeSpecs]
  | s :: rest => by
    rw [encodeSpecs, decodeSpecs, decodeSpec_encodeSpec s, decodeSpecs_encodeSpecs rest]
    rfl
end

theorem decodeJob_encodeJob [Inhabited Meta] [Inhabited Pod] (j : ProwJob Meta Pod) :
    decodeJob (encodeJob j) = some j := by
  obtain ⟨api, kind, m, sp, st⟩ := j
  have h1 : readFields jobStep (strField "apiVersion" api : List (String × Wire Meta Pod))
      zeroJob = some ⟨api, "", default, zeroSpec, {}⟩ := by
    by_cases h : api = "" <;> simp [strField, h, readFields, jobStep, zeroJob]
  have h2 : readFields jobStep (strField "kind" kind : List (String × Wire Meta Pod))
      ⟨api, "", default, zeroSpec, {}⟩ = some ⟨api, kind, default, zeroSpec, {}⟩ := by
    by_cases h : kind = "" <;> simp [strField, h, readFields, jobStep]
  have h3 : readFields jobStep ([("metadata", Wire.metadata m), ("spec", encodeSpec sp),
      ("status", encodeStatus st)] : List (String × Wire Meta Pod))
      ⟨api, kind, default, zeroSpec, {}⟩ = some ⟨api, kind, m, sp, st⟩ := by
    simp [readFields, jobStep, decodeSpec_encodeSpec, decodeStatus_encodeStatus]
  simp only [encodeJob, decodeJob, readFields_append, h1, h2, h3, Option.some_bind,
    Option.bind_some]

theorem depth_nestSpec [Inhabited Pod] (n : Nat) :
    (nestSpec (zeroSpec : ProwJobSpec Pod) n).depth = n := by
  induction n with
  | zero => simp [nestSpec, zeroSpec, ProwJobSpec.depth, depthList]
  | succ n ih => simp only [nestSpec, ProwJobSpec.depth, depthList, ih, Nat.max_zero]

end WireLemmas

/-! ## The completion query -/

/-- C1: for every job `j`, `Complete` returns true exactly when
`Status.CompletionTime` is not the zero time; the answer is the same for
every job with that completion time, whatever its `State` and other fields
are, and for a job built from any other field values it is the negation of
`IsZero` on the completion time. `Complete` is a function into `Bool`
defined on every job, so the call has no failing case. -/
theorem Complete_iff_completionTime_not_zero {Meta Pod : Type} (j : ProwJob Meta Pod) :
    (j.Complete = true ↔ ¬ j.Status.CompletionTime.isZeroTime) ∧
    (∀ j2 : ProwJob Meta Pod,
      j2.Status.CompletionTime = j.Status.CompletionTime → j2.Complete = j.Complete) ∧
    (∀ (a k : String) (m : Meta) (sp : ProwJobSpec Pod) (t : Time),
      ProwJob.Complete ⟨a, k, m, sp, { CompletionTime := t }⟩ = !t.IsZero) := by
  refine ⟨?_, ?_, ?_⟩
  · simp only [ProwJob.Complete, Time.IsZero, Time.isZeroTime, Bool.not_eq_true',
      Bool.and_eq_false_iff, beq_eq_false_iff_ne, ne_eq]
    tauto
  · intro j2 h
    simp [ProwJob.Complete, h]
  · intro a k m sp t
    rfl

/-- C9: a job in state `pending` with a completion time set is complete, a
job in state `success` with the zero completion time is not, and replacing
`Status.State` by any value never changes what `Complete` returns, so two
jobs that differ only in `Status.State` get the same answer. -/
theorem Complete_independent_of_state :
    (∃ j : ProwJob Unit Unit, j.Status.State = PendingState ∧
      ¬ j.Status.CompletionTime.isZeroTime ∧ j.Complete = true) ∧
    (∃ j : ProwJob Unit Unit, j.Status.State = SuccessState ∧
      j.Status.CompletionTime.isZeroTime ∧ j.Complete = false) ∧
    (∀ (Meta Pod : Type) (j : ProwJob Meta Pod) (s : ProwJobState),
      (j.withState s).Complete = j.Complete) ∧
    (∀ (Meta Pod : Type) (j1 j2 : ProwJob Meta Pod),
      j2.withState j1.Status.State = j1 → j1.Complete = j2.Complete) := by
  refine ⟨?_, ?_, ?_, ?_⟩
  · refine ⟨⟨"", "", (), { PodSpec := (), RunAfterSuccess := [] },
      { State := PendingState, CompletionTime := { ext := 63645696000 } }⟩, rfl, ?_, by decide⟩
    simp only [Time.isZeroTime]
    decide
  · refine ⟨⟨"", "", (), { PodSpec := (), RunAfterSuccess := [] }, { State := SuccessState }⟩, rfl, ?_, by decide⟩
    simp only [Time.isZeroTime]
    decide
  · intro Meta Pod j s
    rfl
  · intro Meta Pod j1 j2 h
    rw [← h]
    rfl

/-! ## The enumerated constants -/

/-- C8: the state, type and agent constants have the listed string values,
and the constants of each enumeration are pairwise distinct. -/
theorem enum_constants_values_distinct :
    ([TriggeredState, PendingState, SuccessState, FailureState, AbortedState, ErrorState]
      = ["triggered", "pending", "success", "failure", "aborted", "error"]) ∧
    ([PresubmitJob, PostsubmitJob, PeriodicJob, BatchJob]
      = ["presubmit", "postsubmit", "periodic", "batch"]) ∧
    ([KubernetesAgent, JenkinsAgent] = ["kubernetes", "jenkins"]) ∧
    [TriggeredState, PendingState, SuccessState, FailureState, AbortedState, ErrorState].Nodup ∧
    [PresubmitJob, PostsubmitJob, PeriodicJob, BatchJob].Nodup ∧
    [KubernetesAgent, JenkinsAgent].Nodup := by
  decide

/-! ## The rendering of references -/

/-- C2: for every `Refs` value, `String` is `BaseRef`, a colon and `BaseSHA`,
followed for each pull in stored order by a comma, the number in base 10, a
colon and the SHA; base `main` at `abc123` with pulls 42 at `def456` and 7 at
`111aaa` renders as `main:abc123,42:def456,7:111aaa` whatever the authors.
The base-10 text of a number reads back as that number, is made of digits
after a `-` for a negative number, and has no leading `0` unless the number
is 0. -/
theorem Refs_String_format :
    (∀ r : Refs, r.String = r.BaseRef ++ ":" ++ r.BaseSHA ++ pullsSuffix r.Pulls) ∧
    (∀ org repo a1 a2 : String,
      Refs.String ⟨org, repo, "main", "abc123", [⟨42, a1, "def456"⟩, ⟨7, a2, "111aaa"⟩]⟩
        = "main:abc123,42:def456,7:111aaa") ∧
    (∀ org repo a1 : String,
      Refs.String ⟨org, repo, "main", "abc123", [⟨-42, a1, "def456"⟩]⟩
        = "main:abc123,-42:def456") ∧
    (∀ n : Int, intValue (decimal n).data = n ∧
      (n < 0 → decimal n = "-" ++ decimal (n.natAbs : Int)) ∧
      (∀ c ∈ (decimal (n.natAbs : Int)).data, isDecDigit c) ∧
      (n ≠ 0 → ∀ t : List Char, (decimal (n.natAbs : Int)).data ≠ '0' :: t)) := by
  refine ⟨Refs.String_eq, ?_, ?_, ?_⟩
  · intro org repo a1 a2
    rw [Refs.String_eq]
    simp only [pullsSuffix]
    decide
  · intro org repo a1
    rw [Refs.String_eq]
    simp only [pullsSuffix]
    decide
  · intro n
    refine ⟨intValue_decimal n, decimal_neg n, repr_isDecDigit _, ?_⟩
    intro hn t
    exact repr_no_leading_zero _ (Int.natAbs_pos.2 hn) t

/-- C3: a `Refs` value with no pulls renders as exactly `BaseRef`, a colon
and `BaseSHA`, with nothing after it. -/
theorem Refs_String_no_pulls (r : Refs) (h : r.Pulls = []) :
    r.String = r.BaseRef ++ ":" ++ r.BaseSHA := by
  rw [Refs.String_eq, h]
  simp [pullsSuffix]

/-- Base `main` at `abc123` with no pulls renders as `main:abc123`. -/
theorem Refs_String_no_pulls_witness :
    ({ BaseRef := "main", BaseSHA := "abc123" } : Refs).Pulls = [] ∧
    Refs.String { BaseRef := "main", BaseSHA := "abc123" } = "main:abc123" :=
  ⟨rfl, (Refs_String_no_pulls { BaseRef := "main", BaseSHA := "abc123" } rfl).trans (by decide)⟩

/-- C4: `String` is defined on every `Refs` value; its result begins with
`BaseRef`, a colon and `BaseSHA`, so it is never the empty string, and it is
exactly `:` when `BaseRef`, `BaseSHA` and `Pulls` are all empty. -/
theorem Refs_String_never_empty (r : Refs) :
    (∃ t : String, r.String = r.BaseRef ++ ":" ++ r.BaseSHA ++ t) ∧
    (r.BaseRef ++ ":" ++ r.BaseSHA).data <+: r.String.data ∧
    r.String ≠ "" ∧
    (r.BaseRef = "" → r.BaseSHA = "" → r.Pulls = [] → r.String = ":") := by
  refine ⟨⟨pullsSuffix r.Pulls, Refs.String_eq r⟩, ?_, ?_, ?_⟩
  · rw [Refs.String_eq, String.data_append]
    exact List.prefix_append _ _
  · intro h
    have hl := congrArg String.length h
    rw [Refs.String_eq] at hl
    simp only [String.length_append] at hl
    have h1 : (":" : String).length = 1 := rfl
    have h0 : ("" : String).length = 0 := rfl
    omega
  · intro h1 h2 h3
    rw [Refs.String_eq, h1, h2, h3]
    rfl

/-- The empty `Refs` value renders as `:`. -/
theorem Refs_String_never_empty_witness :
    Refs.String {} ≠ "" ∧ Refs.String {} = ":" :=
  ⟨(Refs_String_never_empty {}).2.2.1, (Refs_String_never_empty {}).2.2.2 rfl rfl rfl⟩

/-- C5: when `BaseRef`, `BaseSHA` and every pull's SHA hold no comma,
splitting the rendering at the commas gives `1 + len(Pulls)` segments, the
first is `BaseRef`, a colon and `BaseSHA`, and for every index `i` below
`len(Pulls)` segment `i + 1` is the number of pull `i` in base 10, a colon
and the SHA of pull `i`. -/
theorem Split_String_segments_in_stored_order (r : Refs)
    (hRef : ',' ∉ r.BaseRef.data) (hSha : ',' ∉ r.BaseSHA.data)
    (hPulls : ∀ p ∈ r.Pulls, ',' ∉ p.SHA.data) :
    (Split r.String ',').length = 1 + r.Pulls.length ∧
    (Split r.String ',')[0]? = some (r.BaseRef ++ ":" ++ r.BaseSHA) ∧
    ∀ (i : Nat) (h : i < r.Pulls.length),
      (Split r.String ',')[i + 1]?
        = some (decimal (r.Pulls.get ⟨i, h⟩).Number ++ ":" ++ (r.Pulls.get ⟨i, h⟩).SHA) := by
  rw [Split_String r hRef hSha hPulls]
  refine ⟨?_, by simp, ?_⟩
  · simp [Nat.add_comm]
  · intro i h
    simp [List.getElem?_eq_getElem, h, pullSegment]

/-- The rendering of base `main` at `abc123` with pulls 42 and 7 splits into
its three segments, in stored order. -/
theorem Split_String_segments_in_stored_order_witness :
    Split (Refs.String ⟨"o", "r", "main", "abc123",
        [⟨42, "x", "def456"⟩, ⟨7, "y", "111aaa"⟩]⟩) ','
      = ["main:abc123", "42:def456", "7:111aaa"] := by
  have h := Split_String_segments_in_stored_order
    ⟨"o", "r", "main", "abc123", [⟨42, "x", "def456"⟩, ⟨7, "y", "111aaa"⟩]⟩
    (by decide) (by decide) (by decide)
  obtain ⟨hl, h0, hi⟩ := h
  have h1 := hi 0 (by decide)
  have h2 := hi 1 (by decide)
  apply List.ext_getElem?
  intro n
  match n with
  | 0 => rw [h0]; decide
  | 1 => rw [h1]; decide
  | 2 => rw [h2]; decide
  | n + 3 =>
    rw [List.getElem?_eq_none (by rw [hl]; simp), List.getElem?_eq_none (by simp)]

/-- C6: two `Refs` values that agree on `BaseRef`, `BaseSHA`, the number of
pulls and each pull's number and SHA have the same rendering, whatever their
`Org`, `Repo` and pull authors are. -/
theorem Refs_String_depends_only_on_rendered_fields (r1 r2 : Refs)
    (hRef : r1.BaseRef = r2.BaseRef) (hSha : r1.BaseSHA = r2.BaseSHA)
    (hLen : r1.Pulls.length = r2.Pulls.length)
    (hPulls : ∀ (i : Nat) (h1 : i < r1.Pulls.length) (h2 : i < r2.Pulls.length),
      (r1.Pulls.get ⟨i, h1⟩).Number = (r2.Pulls.get ⟨i, h2⟩).Number ∧
      (r1.Pulls.get ⟨i, h1⟩).SHA = (r2.Pulls.get ⟨i, h2⟩).SHA) :
    r1.String = r2.String := by
  rw [Refs.String_eq, Refs.String_eq, hRef, hSha,
    pullsSuffix_congr _ _ (rendered_eq_of_pointwise _ _ hLen hPulls)]

/-- Two `Refs` values with different `Org`, `Repo` and authors but the same
base and the same pull numbers and SHAs render alike. -/
theorem Refs_String_depends_only_on_rendered_fields_witness :
    Refs.String ⟨"org1", "repo1", "main", "abc123", [⟨42, "alice", "def456"⟩, ⟨7, "bob", "111aaa"⟩]⟩
      = Refs.String ⟨"org2", "repo2", "main", "abc123", [⟨42, "carol", "def456"⟩, ⟨7, "", "111aaa"⟩]⟩ :=
  Refs_String_depends_only_on_rendered_fields
    ⟨"org1", "repo1", "main", "abc123", [⟨42, "alice", "def456"⟩, ⟨7, "bob", "111aaa"⟩]⟩
    ⟨"org2", "repo2", "main", "abc123", [⟨42, "carol", "def456"⟩, ⟨7, "", "111aaa"⟩]⟩
    rfl rfl rfl (by decide)

/-- C10: when neither `BaseRef` holds a colon or a comma and no `BaseSHA` or
pull SHA of either value holds a comma, equal renderings force the same
`BaseRef`, the same `BaseSHA`, the same number of pulls and the same number
and SHA at every pull position; without the condition this fails: `BaseRef`
`a:b` with `BaseSHA` `c` and `BaseRef` `a` with `BaseSHA` `b:c` render alike. -/
theorem Refs_String_injective_without_separators :
    (∀ r1 r2 : Refs,
      (':' ∉ r1.BaseRef.data ∧ ',' ∉ r1.BaseRef.data) →
      (':' ∉ r2.BaseRef.data ∧ ',' ∉ r2.BaseRef.data) →
      ',' ∉ r1.BaseSHA.data → ',' ∉ r2.BaseSHA.data →
      (∀ p ∈ r1.Pulls, ',' ∉ p.SHA.data) → (∀ p ∈ r2.Pulls, ',' ∉ p.SHA.data) →
      r1.String = r2.String →
      r1.BaseRef = r2.BaseRef ∧ r1.BaseSHA = r2.BaseSHA ∧
      r1.Pulls.length = r2.Pulls.length ∧
      ∀ (i : Nat) (h1 : i < r1.Pulls.length) (h2 : i < r2.Pulls.length),
        (r1.Pulls.get ⟨i, h1⟩).Number = (r2.Pulls.get ⟨i, h2⟩).Number ∧
        (r1.Pulls.get ⟨i, h1⟩).SHA = (r2.Pulls.get ⟨i, h2⟩).SHA) ∧
    (∃ r1 r2 : Refs, r1.BaseRef = "a:b" ∧ r1.BaseSHA = "c" ∧ r2.BaseRef = "a" ∧
      r2.BaseSHA = "b:c" ∧ r1.BaseRef ≠ r2.BaseRef ∧ r1.String = r2.String) := by
  refine ⟨?_, ⟨{ BaseRef := "a:b", BaseSHA := "c" }, { BaseRef := "a", BaseSHA := "b:c" },
    rfl, rfl, rfl, rfl, by decide, by decide⟩⟩
  intro r1 r2 hr1 hr2 s1 s2 p1 p2 h
  obtain ⟨hb, hs, hp⟩ := String_inj r1 r2 hr1.1 hr2.1 hr1.2 hr2.2 s1 s2 p1 p2 h
  exact ⟨hb, hs, pointwise_of_rendered_eq _ _ hp⟩

/-- Two values with the rendering `main:abc123,42:def456` and different
authors: the shared rendering pins the base and the pull's number and SHA. -/
theorem Refs_String_injective_without_separators_witness :
    (⟨"o", "r", "main", "abc123", [⟨42, "alice", "def456"⟩]⟩ : Refs).BaseRef
      = (⟨"p", "q", "main", "abc123", [⟨42, "bob", "def456"⟩]⟩ : Refs).BaseRef ∧
    (⟨"o", "r", "main", "abc123", [⟨42, "alice", "def456"⟩]⟩ : Refs).Pulls.length
      = (⟨"p", "q", "main", "abc123", [⟨42, "bob", "def456"⟩]⟩ : Refs).Pulls.length :=
  have h := Refs_String_injective_without_separators.1
    ⟨"o", "r", "main", "abc123", [⟨42, "alice", "def456"⟩]⟩
    ⟨"p", "q", "main", "abc123", [⟨42, "bob", "def456"⟩]⟩
    (by decide) (by decide) (by decide) (by decide) (by decide) (by decide) (by decide)
  ⟨h.1, h.2.2.1⟩

/-! ## The wire format round trip -/

/-- C7: decoding the wire record of any job gives the job back, equal in
every field, whatever strings its `type`, `agent` and `state` hold (the
listed enum values among them); the same holds for a spec alone, so a
`RunAfterSuccess` tree comes back with the same children in the same order
at every level, and specs of every nesting depth `N` exist and round-trip. -/
theorem wire_round_trip {Meta Pod : Type} [Inhabited Meta] [Inhabited Pod] :
    (∀ j : ProwJob Meta Pod, decodeJob (encodeJob j) = some j) ∧
    (∀ s : ProwJobSpec Pod, decodeSpec (encodeSpec s : Wire Meta Pod) = some s) ∧
    (∀ l : List (ProwJobSpec Pod),
      decodeSpecs (encodeSpecs l : List (Wire Meta Pod)) = some l) ∧
    (∀ N : Nat, ∃ s : ProwJobSpec Pod, s.depth = N ∧
      decodeSpec (encodeSpec s : Wire Meta Pod) = some s) :=
  ⟨decodeJob_encodeJob, decodeSpec_encodeSpec, decodeSpecs_encodeSpecs,
    fun N => ⟨nestSpec zeroSpec N, depth_nestSpec N, decodeSpec_encodeSpec _⟩⟩

/-- A presubmit job on the kubernetes agent in state `pending`, with one
pull and a child spec that has a child of its own, round-trips. -/
theorem wire_round_trip_witness :
    decodeJob (encodeJob (⟨"v1", "ProwJob", (),
        ⟨PresubmitJob, KubernetesAgent, "unit", ⟨"o", "r", "main", "abc123", [⟨42, "a", "def456"⟩]⟩,
          true, "ctx", "/test unit", 2, (),
          [⟨PostsubmitJob, JenkinsAgent, "child", {}, false, "", "", 0, (),
            [⟨PeriodicJob, "", "grandchild", {}, false, "", "", 0, (), []⟩]⟩]⟩,
        { State := PendingState }⟩ : ProwJob Unit Unit))
      = some ⟨"v1", "ProwJob", (),
        ⟨PresubmitJob, KubernetesAgent, "unit", ⟨"o", "r", "main", "abc123", [⟨42, "a", "def456"⟩]⟩,
          true, "ctx", "/test unit", 2, (),
          [⟨PostsubmitJob, JenkinsAgent, "child", {}, false, "", "", 0, (),
            [⟨PeriodicJob, "", "grandchild", {}, false, "", "", 0, (), []⟩]⟩]⟩,
        { State := PendingState }⟩ :=
  wire_round_trip.1 _

/-! ## Composition over the pull sequence -/

/-- C11: for every `Refs` value and every two pull sequences `ps` and `qs`,
the rendering with pulls `ps ++ qs` is the rendering with pulls `ps` followed,
for each pull of `qs` in order, by a comma, the number in base 10, a colon
and the SHA; so the rendering with pulls `ps` is a prefix of the rendering
with one more pull at the end, which adds exactly that pull's text. -/
theorem Refs_String_append_pulls (r : Refs) (ps qs : List Pull) :
    (r.withPulls (ps ++ qs)).String = (r.withPulls ps).String ++ pullsSuffix qs ∧
    (∀ q : Pull, (r.withPulls (ps ++ [q])).String
      = (r.withPulls ps).String ++ ("," ++ decimal q.Number ++ ":" ++ q.SHA)) ∧
    (∀ q : Pull, (r.withPulls ps).String.data <+: (r.withPulls (ps ++ [q])).String.data) ∧
    (r.withPulls ps).String.data <+: (r.withPulls (ps ++ qs)).String.data := by
  have h : ∀ l : List Pull, (r.withPulls (ps ++ l)).String
      = (r.withPulls ps).String ++ pullsSuffix l := by
    intro l
    simp only [Refs.String_eq, Refs.withPulls, pullsSuffix_append, String.append_assoc]
  refine ⟨h qs, ?_, ?_, ?_⟩
  · intro q
    rw [h [q]]
    simp only [pullsSuffix, String.append_assoc, String.append_empty]
  · intro q
    rw [h [q], String.data_append]
    exact List.prefix_append _ _
  · rw [h qs, String.data_append]
    exact List.prefix_append _ _

/-- Adding pull 7 at `111aaa` after pull 42 at `def456` on base `main` at
`abc123` appends `,7:111aaa` to `main:abc123,42:def456`. -/
theorem Refs_String_append_pulls_witness :
    Refs.String ⟨"o", "r", "main", "abc123", [⟨42, "x", "def456"⟩]⟩ = "main:abc123,42:def456" ∧
    Refs.String ⟨"o", "r", "main", "abc123", [⟨42, "x", "def456"⟩, ⟨7, "y", "111aaa"⟩]⟩
      = "main:abc123,42:def456" ++ ",7:111aaa" :=
  ⟨by decide,
    ((Refs_String_append_pulls ⟨"o", "r", "main", "abc123", []⟩ [⟨42, "x", "def456"⟩]
      [⟨7, "y", "111aaa"⟩]).1).trans (by decide)⟩

end Kube
